import Mathlib

/-!
Verification development for the devregs conversion scripts
(scripts/parse_trm_to_devregs.py and scripts/svd2devregs.py).

The free-text pipeline of parse_trm_to_devregs.py is a sequence of
compiled regular expressions driven by a single forward cursor (the
global match object m).  Each regex of the source is embedded here as a
bespoke scanning function on `List Char`; every function carries a
comment naming the source pattern it translates and how the backtracking
of that concrete pattern resolves (all quantifiers in the source apply
to single-character classes, so each pattern admits a direct
first-match/maximal-run reading, derived case by case below).

Character classes are modelled at ASCII level: the source compiles its
patterns over Python `str` (Unicode), but every character the patterns
test against is ASCII except the range separator of r_field, which in
the source file is the literal three-character sequence
U+00E2 U+20AC U+201C (the UTF-8 bytes of EN DASH re-decoded as cp1252;
see `dashLit`).

Cursor convention: the Python code keeps `m` and always continues at
`m.end()`.  We thread the remaining suffix of the chapter instead; a
search from `m.end()` is a search on the current suffix.  The positional
rendering of get_nextm (source lines 58-68) is given separately as
`get_nextm_search` / `get_nextm_match` for the cursor-monotonicity
claim.
-/

namespace Devregs

/-- Python `\s` on the ASCII range: space, tab, newline, carriage
return, vertical tab, form feed. -/
def isWs (c : Char) : Bool :=
  c == ' ' || c == '\t' || c == '\n' || c == '\r' || c == '\x0b' || c == '\x0c'

/-- Python `\w` on the ASCII range: letters, digits, underscore. -/
def isWd (c : Char) : Bool := c.isAlphanum || c == '_'

/-- Python `\d` on the ASCII range. -/
def isDigitC (c : Char) : Bool := c.isDigit

/-- Python substring containment (`needle in hay`). -/
def listInfix (needle : List Char) : List Char → Bool
  | [] => needle.isPrefixOf ([] : List Char)
  | c :: t => needle.isPrefixOf (c :: t) || listInfix needle t

/-- `regexp.search(chapter, pos)` for a matcher `m` that attempts an
anchored match on a suffix: try every start position from the cursor on,
leftmost first (positions beyond the end of the text degenerate to the
empty suffix, tried once).  Returns the number of characters skipped
before the match start together with the match data of `m`. -/
def searchSuffix (m : List Char → Option (γ × List Char)) :
    List Char → Option (Nat × (γ × List Char))
  | [] => (m []).map (fun p => (0, p))
  | c :: t =>
    match m (c :: t) with
    | some p => some (0, p)
    | none => (searchSuffix m t).map (fun q => (q.1 + 1, q.2))

/-- r_name = `^.*?\((?P<rname>\w+)\)` with M and S, used as
`r_name.match(chapter)` (source line 110).  The lazy `.*?` under DOTALL
scans forward for the first opening parenthesis whose following maximal
`\w` run is nonempty and immediately followed by a closing parenthesis
(shorter runs cannot help: every proper prefix of the run is followed by
a word character, never by the closing parenthesis).  Returns the rname
group and the suffix after the match. -/
def nameScan : List Char → Option (List Char × List Char)
  | [] => none
  | c :: t =>
    if c = '(' then
      match t.takeWhile isWd, t.dropWhile isWd with
      | w :: ws, ')' :: t2 => some (w :: ws, t2)
      | _, _ => nameScan t
    else nameScan t

/-- Tail of r_adr after a matched `=`: `\s(?P<a1>....)_(?P<a2>....)h\n`.
Under DOTALL the eight group characters are arbitrary.  Returns the two
groups and the suffix after the final newline. -/
def adrAfterEq : List Char → Option ((List Char × List Char) × List Char)
  | c :: c1 :: c2 :: c3 :: c4 :: u :: d1 :: d2 :: d3 :: d4 :: h :: n :: r =>
    if isWs c && u == '_' && h == 'h' && n == '\n' then
      some (([c1, c2, c3, c4], [d1, d2, d3, d4]), r)
    else none
  | _ => none

/-- The `.*?=` part of r_adr under DOTALL: the lazy any-run scans the
whole remaining text for the first `=` whose continuation matches
`adrAfterEq`; on failure the lazy run also swallows that `=` and the
scan continues. -/
def adrScanEq : List Char → Option ((List Char × List Char) × List Char)
  | [] => none
  | c :: t =>
    if c = '=' then
      match adrAfterEq t with
      | some x => some x
      | none => adrScanEq t
    else adrScanEq t

/-- One anchored attempt of r_adr =
`\n\s*Address:.*?=\s(?P<a1>....)_(?P<a2>....)h\n` (M, S, X; source
lines 30-32): a newline, then the maximal whitespace run (greedy `\s*`
cannot usefully backtrack: every shorter stop is on a whitespace
character, never on the required `A`), then the literal, then the
scanning tail. -/
def adrTry (s : List Char) : Option ((List Char × List Char) × List Char) :=
  match s with
  | c :: t =>
    if c = '\n' then
      let t1 := t.dropWhile isWs
      if ("Address:".toList).isPrefixOf t1 then adrScanEq (t1.drop 8)
      else none
    else none
  | [] => none

/-- Suffix just after the first occurrence of the literal `lit`
(a lazy `.*?lit` step under DOTALL). -/
def findLitAfter (lit : List Char) : List Char → Option (List Char)
  | [] => if lit.isPrefixOf ([] : List Char) then some [] else none
  | c :: t =>
    if lit.isPrefixOf (c :: t) then some ((c :: t).drop lit.length)
    else findLitAfter lit t

/-- Suffix just after the first `0` or `1` (the `.*?(0|1)` step of
r_bitdescription under DOTALL). -/
def find01After : List Char → Option (List Char)
  | [] => none
  | c :: t => if c = '0' || c = '1' then some t else find01After t

/-- The `.*?Field\s+Description` tail of r_bitdescription: scan for the
first occurrence of `Field` that is followed by a nonempty maximal
whitespace run (greedy `\s+` cannot stop early: every earlier stop is on
whitespace, never on `D`) and then the literal `Description`; failed
occurrences are swallowed by the growing lazy run. -/
def findFieldDesc : List Char → Option (List Char)
  | [] => none
  | c :: t =>
    if ("Field".toList).isPrefixOf (c :: t) then
      let u := (c :: t).drop 5
      let run := u.takeWhile isWs
      let u1 := u.dropWhile isWs
      if !run.isEmpty && ("Description".toList).isPrefixOf u1 then
        some (u1.drop 11)
      else findFieldDesc t
    else findFieldDesc t

/-- r_bitdescription = `^.*?Reset.*?(0|1).*?Field\s+Description`
(M, S, X; source lines 33-35), used via search (source line 136).
Under M the anchor `^` holds at the cursor itself only when the cursor
sits just after a newline (flag `atLS`); otherwise the leftmost viable
start is just after the first newline at or beyond the cursor.  From
that start the three lazy runs under DOTALL reduce to successive
first-occurrence scans (if any chain of positions matches, the chain of
first occurrences does).  Returns the suffix after `Description`. -/
def bitdescFrom (atLS : Bool) (s : List Char) : Option (List Char) :=
  let s0 := if atLS then some s else findLitAfter ['\n'] s
  match s0 with
  | none => none
  | some s1 =>
    match findLitAfter ("Reset".toList) s1 with
    | none => none
    | some s2 =>
      match find01After s2 with
      | none => none
      | some s3 => findFieldDesc s3

/-- The range separator literally present in r_field (source line 47):
the three characters U+00E2, U+20AC, U+201C.  These are the UTF-8 bytes
of EN DASH (U+2013) re-decoded as cp1252; the source file stores this
mojibake, and Python (reading the file as UTF-8) compiles the pattern
with exactly these three characters, so the compiled regex does NOT
match a true EN DASH. -/
def dashLit : List Char := ['â', '€', '“']

/-- The `.*(?=\n)` tail shared by r_field: the greedy non-newline run
followed by a zero-width newline lookahead stops exactly at the next
newline, which must exist and is NOT consumed.  Returns the suffix
starting at that newline. -/
def dotStarNlKeep (u : List Char) : Option (List Char) :=
  match u.dropWhile (fun c => !(c == '\n')) with
  | [] => none
  | c :: t => some (c :: t)

/-- One anchored attempt of r_field =
`\n\s{2,12}(?P<endbit>\d+)(DASH(?P<startbit>\d+)|\s).*(?=\n)`
(M, X; source lines 45-48; DASH is `dashLit`): a newline, then a
maximal whitespace run of length 2..12 (a run of 13 or more kills the
candidate: every stop the bounded greedy quantifier can backtrack to is
on whitespace, never on a digit), then the maximal digit run (endbit),
then either the separator plus a nonempty digit run (startbit) or a
single whitespace character, then the rest up to an existing newline,
kept unconsumed.  Returns ((endbit, startbit?), suffix at the final
newline). -/
def fieldTry (s : List Char) : Option ((List Char × Option (List Char)) × List Char) :=
  match s with
  | c :: t =>
    if c = '\n' then
      let run := t.takeWhile isWs
      let t1 := t.dropWhile isWs
      if 2 ≤ run.length && run.length ≤ 12 then
        match t1 with
        | d :: _ =>
          if isDigitC d then
            let eb := t1.takeWhile isDigitC
            let t2 := t1.dropWhile isDigitC
            if dashLit.isPrefixOf t2 then
              let t3 := t2.drop dashLit.length
              let sbv := t3.takeWhile isDigitC
              if sbv.isEmpty then none
              else
                match dotStarNlKeep (t3.dropWhile isDigitC) with
                | none => none
                | some r => some ((eb, some sbv), r)
            else
              match t2 with
              | e :: t3 =>
                if isWs e then
                  match dotStarNlKeep t3 with
                  | none => none
                  | some r => some ((eb, none), r)
                else none
              | [] => none
          else none
        | [] => none
      else none
    else none
  | [] => none

/-- Outcome class of one r_fldname match: the alternation
`((-)|(Reserved)) | fldname_multi | fldname_solo` (source lines 49-56). -/
inductive FldAlt where
  | reserved : FldAlt
  | multi : List Char → FldAlt
  | solo : List Char → FldAlt
deriving DecidableEq

/-- The lookahead `(?=\s.*\n)` of fldname_multi (no DOTALL): one
whitespace character, then a non-newline run, then a newline; it
succeeds exactly when the first character is whitespace and some later
newline exists. -/
def multiLook : List Char → Bool
  | [] => false
  | c :: t => isWs c && t.contains '\n'

/-- One anchored attempt of r_fldname = `\n\s{0,13}(alts)` (M, X;
source lines 49-56): a newline, then a maximal whitespace run of length
at most 13 (14 or more kills the candidate, as in `fieldTry`), then in
priority order: a bare dash or the literal Reserved (no name); else,
guarded by the lookaheads `(?!\d+)` (first character not a digit) and
`(?!Field)` (the literal Field not next), fldname_multi =
`\w+_(?=\s.*\n)` -- the maximal word run when it has length at least 2,
ends in an underscore (backtracking inside `\w+` cannot place the
underscore anywhere except at the end of the run, because the lookahead
then starts on a word character) and the lookahead holds -- or else
fldname_solo = the maximal word run.  Returns the alternative and the
suffix after the match (for multi the lookahead is zero width). -/
def fldnameTry (s : List Char) : Option (FldAlt × List Char) :=
  match s with
  | c :: t =>
    if c = '\n' then
      let run := t.takeWhile isWs
      let t1 := t.dropWhile isWs
      if run.length ≤ 13 then
        match t1 with
        | [] => none
        | d :: r0 =>
          if d = '-' then some (.reserved, r0)
          else if ("Reserved".toList).isPrefixOf t1 then some (.reserved, t1.drop 8)
          else if isDigitC d then none
          else if ("Field".toList).isPrefixOf t1 then none
          else
            let w := t1.takeWhile isWd
            if w.isEmpty then none
            else
              let r := t1.dropWhile isWd
              if 2 ≤ w.length && w.getLastD ' ' == '_' && multiLook r then
                some (.multi w, r)
              else some (.solo w, r)
      else none
    else none
  | [] => none

/-- The `.*\n` step of r_pagebreak (no DOTALL): greedy to the next
newline, which must exist and is consumed. -/
def dotStarNl (u : List Char) : Option (List Char) :=
  match u.dropWhile (fun c => !(c == '\n')) with
  | [] => none
  | _ :: t => some t

/-- A single `\s` step. -/
def stripWs1 : List Char → Option (List Char)
  | [] => none
  | c :: t => if isWs c then some t else none

/-- A literal step. -/
def stripLit (lit : List Char) (s : List Char) : Option (List Char) :=
  if lit.isPrefixOf s then some (s.drop lit.length) else none

/-- Backtracking candidates of `\s{min,}.*\n` applied at the front of
`s`, in engine priority order.  Writing R for the maximal whitespace
run (required length at least `minWs`): the greedy quantifier first
stops at the end of the run, where `.*\n` consumes up to and including
the first newline after the run (if one exists); backtracking then
re-stops the quantifier at successively earlier newlines INSIDE the run
(positions at index at least `minWs`), each consumed directly by the
final `\n` -- intermediate stops on non-newline whitespace give the
same consumed newline and are dropped as duplicates.  Each candidate is
the suffix just after the consumed newline. -/
def wsDotNlCands (minWs : Nat) (s : List Char) : List (List Char) :=
  let run := s.takeWhile isWs
  let rest := s.dropWhile isWs
  if run.length < minWs then []
  else
    (match rest.dropWhile (fun c => !(c == '\n')) with
      | [] => []
      | _ :: r => [r]) ++
    (List.range run.length).reverse.filterMap (fun p =>
      if minWs ≤ p && run.get? p == some '\n' then
        some (run.drop (p + 1) ++ rest)
      else none)

/-- Line 2 of r_pagebreak:
`\s{20,}Table\scontinues\son\sthe\snext\spage.*\n` (source line 38).
The `\s{20,}` stop is forced to the end of the maximal run (the next
token is the literal T); each inner `\s` is a single character; the
final `.*\n` consumes through the next newline. -/
def pbLine2 (s : List Char) : Option (List Char) :=
  let run := s.takeWhile isWs
  let t := s.dropWhile isWs
  if run.length < 20 then none
  else
    (stripLit ("Table".toList) t).bind fun t1 =>
    (stripWs1 t1).bind fun t2 =>
    (stripLit ("continues".toList) t2).bind fun t3 =>
    (stripWs1 t3).bind fun t4 =>
    (stripLit ("on".toList) t4).bind fun t5 =>
    (stripWs1 t5).bind fun t6 =>
    (stripLit ("the".toList) t6).bind fun t7 =>
    (stripWs1 t7).bind fun t8 =>
    (stripLit ("next".toList) t8).bind fun t9 =>
    (stripWs1 t9).bind fun t10 =>
    (stripLit ("page".toList) t10).bind fun t11 =>
    dotStarNl t11

/-- Line 4 of r_pagebreak: `.*NXP\sSemiconductors.*\n` (source line
40).  The greedy leading `.*` stays on the current line, so the engine
tries occurrences of `NXP` on the current line rightmost first; after
the literal comes one whitespace character (possibly the newline
itself), the second literal, and `.*\n` consuming through the next
newline.  Candidates can end at different places, so all are listed in
priority order. -/
def pbLine4 (s : List Char) : List (List Char) :=
  let lineLen := (s.takeWhile (fun c => !(c == '\n'))).length
  (List.range lineLen).reverse.filterMap (fun i =>
    let u := s.drop i
    if ("NXP".toList).isPrefixOf u then
      match stripWs1 (u.drop 3) with
      | none => none
      | some v =>
        match stripLit ("Semiconductors".toList) v with
        | none => none
        | some v2 => dotStarNl v2
    else none)

/-- Line 6 of r_pagebreak: `.*continued.*\n` (source line 42).  All
placements of the literal inside the current line consume through the
same newline, so the step degenerates to: current line mentions the
literal, consume through its newline. -/
def pbLine6 (s : List Char) : Option (List Char) :=
  let line := s.takeWhile (fun c => !(c == '\n'))
  if listInfix ("continued".toList) line then dotStarNl s else none

/-- Line 7 of r_pagebreak: `.*Field\s+Description` (source line 43).
Occurrences of `Field` on the current line are tried rightmost first;
after it the maximal whitespace run (which may cross newlines) must be
nonempty and followed by the literal `Description`.  The first success
ends the whole pattern. -/
def pbLine7 (s : List Char) : Option (List Char) :=
  let lineLen := (s.takeWhile (fun c => !(c == '\n'))).length
  ((List.range lineLen).reverse.filterMap (fun i =>
    let u := s.drop i
    if ("Field".toList).isPrefixOf u then
      let v := u.drop 5
      let run := v.takeWhile isWs
      let v1 := v.dropWhile isWs
      if !run.isEmpty && ("Description".toList).isPrefixOf v1 then
        some (v1.drop 11)
      else none
    else none)).head?

/-- Lines 2-7 of r_pagebreak after the optional first group. -/
def pbTail2 (g : List Char) : Option (List Char) :=
  (pbLine2 g).bind fun t2 =>
    (wsDotNlCands 20 t2).findSome? fun t3 =>
      (pbLine4 t3).findSome? fun t4 =>
        (dotStarNl t4).bind fun t5 =>
          (pbLine6 t5).bind pbLine7

/-- r_pagebreak (X only; source lines 36-44), used anchored at the
cursor (`is_search=False`, source line 71).  The optional first group
`(\s{14,}.*\n)?` is tried present first (its candidates in priority
order), then absent.  Returns the suffix after the whole match. -/
def pagebreakMatch (s : List Char) : Option (List Char) :=
  ((wsDotNlCands 14 s) ++ [s]).findSome? pbTail2

/-- The pagebreak attempt inside get_fldname (source lines 71-73): on
success the cursor advances past the boilerplate, on failure it stays. -/
def pagebreakStep (s : List Char) : List Char :=
  match pagebreakMatch s with
  | some r => r
  | none => s

/-- Python `int` on a nonempty decimal digit string. -/
def digitsToNat (l : List Char) : Nat :=
  l.foldl (fun acc c => acc * 10 + (c.toNat - 48)) 0

/-- Python `str` on an integer. -/
def intRepr (i : Int) : List Char :=
  if i < 0 then '-' :: Nat.toDigits 10 i.natAbs else Nat.toDigits 10 i.toNat

/-- How one chapter ends: `exit()` on a missing register name (source
line 112) or a raised RuntimeError. -/
inductive Sig where
  | stop : Sig
  | fail : String → Sig
deriving DecidableEq, Repr

/-- How the whole run ends. -/
inductive RunEnd where
  | normal : RunEnd
  | stopped : RunEnd
  | err : String → RunEnd
deriving DecidableEq, Repr

def msgNoBitdesc : String := "no bitdescription found"

def msgNoFldname : String := "cannot find fldname"

/-- get_fldname (source lines 70-87): first an anchored pagebreak
attempt (advancing the cursor on success), then a search for r_fldname
(raising on failure), then by alternative: solo word appended to the
accumulator and returned; multi fragment appended and recursion; dash
or Reserved yields Python `False`, modelled as `none`.  The fuel only
bounds the recursion depth; every call site passes more fuel than the
suffix length, and each multi step strictly shortens the suffix, so the
zero case is never reached there. -/
def getFldname : Nat → List Char → List Char →
    Except String (Option (List Char) × List Char)
  | 0, _, _ => .error msgNoFldname
  | fuel + 1, s, acc =>
    let s1 := pagebreakStep s
    match searchSuffix fldnameTry s1 with
    | none => .error msgNoFldname
    | some (_, alt, r) =>
      match alt with
      | .reserved => .ok (none, r)
      | .solo w => .ok (some (acc ++ w), r)
      | .multi w => getFldname fuel r (acc ++ w)

/-- The range string of one matched r_field (source lines 144-149):
`endbit + "-" + startbit` when startbit matched, else endbit alone. -/
def rangeRepr (ebg : List Char) : Option (List Char) → List Char
  | some sbv => ebg ++ '-' :: sbv
  | none => ebg

/-- A field output line (source lines 156 and 177):
tab, colon, name, colon, range. -/
def tabColon (n fld : List Char) : List Char :=
  '\t' :: ':' :: (n ++ ':' :: fld)

/-- State left behind by the field loop: emitted lines, the groups of
the last matched r_field (endbit always set once the loop ran, startbit
only for a pair), the last range string, and the cursor. -/
structure LoopOut where
  lines : List (List Char)
  eb : Option (List Char)
  sb : Option (List Char)
  field : Option (List Char)
  rest : List Char

/-- The `while get_nextm(r_field)` loop (source lines 143-158): search
r_field (a failure ends the loop with the cursor unchanged), build the
range string, resolve the field name (a raised error aborts the run,
keeping the lines already printed), print the line when a name was
resolved, continue.  Fuel as in `getFldname`. -/
def fieldLoop : Nat → List Char → Option (List Char) → Option (List Char) →
    Option (List Char) → Except (List (List Char) × String) LoopOut
  | 0, s, eb, sb, field => .ok ⟨[], eb, sb, field, s⟩
  | fuel + 1, s, eb, sb, field =>
    match searchSuffix fieldTry s with
    | none => .ok ⟨[], eb, sb, field, s⟩
    | some (_, (ebg, sbg), r) =>
      let fld := rangeRepr ebg sbg
      match getFldname (r.length + 1) r [] with
      | .error msg => .error ([], msg)
      | .ok (fname, r2) =>
        let emitted := match fname with
          | some n => [tabColon n fld]
          | none => []
        match fieldLoop fuel r2 (some ebg) sbg (some fld) with
        | .error (ls, msg) => .error (emitted ++ ls, msg)
        | .ok lo => .ok ⟨emitted ++ lo.lines, lo.eb, lo.sb, lo.field, lo.rest⟩

/-- Trailing-field recovery (source lines 160-177).  The Python guard
is `field is not None and "-0" in field or "0" is field`, which by
operator precedence is `(field != None and "-0" in field) or ("0" is
field)`; CPython caches one-character ASCII strings, so the slice
returned by `m.group` for a one-character endbit is the same object as
the literal and `is` coincides with string equality there (for `None`
and for longer strings it is false).  When the guard fails, one more
name resolution runs: a raised error aborts the run; Python `False`
(dash or Reserved) emits nothing; a name emits one line whose range is
built from the saved groups -- `str(int(sb)-1) + "-0"`, else
`str(int(eb)-1) + "-0"`, else `"31-0"` (the final `else: field = "0"`
arm of the source is unreachable since sb set implies eb set; the
`if field:` test is kept). -/
def recoverySkip (lo : LoopOut) : Bool :=
  match lo.field with
  | some f => listInfix ("-0".toList) f || f == "0".toList
  | none => false

/-- See `recoverySkip` for the guard of line 161. -/
def trailingRecovery (lo : LoopOut) : List (List Char) × Option Sig :=
  if recoverySkip lo then ([], none)
  else
    match getFldname (lo.rest.length + 1) lo.rest [] with
    | .error msg => ([], some (.fail msg))
    | .ok (none, _) => ([], none)
    | .ok (some name, _) =>
      let field : List Char :=
        match lo.sb with
        | some sbv => intRepr ((digitsToNat sbv : Int) - 1) ++ "-0".toList
        | none =>
          match lo.eb with
          | some ebv => intRepr ((digitsToNat ebv : Int) - 1) ++ "-0".toList
          | none => "31-0".toList
      if field.isEmpty then ([], none)
      else ([tabColon name field], none)

/-- Register-line padding (source lines 127-131): one tab, one more if
the name is shorter than 16 characters, one more if shorter than 8. -/
def spaceFor (rname : List Char) : List Char :=
  let s := ['\t']
  let s := if rname.length < 16 then s ++ ['\t'] else s
  if rname.length < 8 then s ++ ['\t'] else s

/-- Address extraction (source lines 117-124): search r_adr from the
end of the name match; on failure the address is the FIXME sentinel and
the cursor stays (get_nextm leaves m unchanged), on success it is `0x`
plus the two four-character groups and the cursor moves past the match.
The boolean records whether the new cursor sits just after a newline
(true exactly on success, since r_adr ends by consuming a newline while
the name match ends at a closing parenthesis); it feeds the `^` anchor
of the following r_bitdescription search. -/
def chapterAddress (s1 : List Char) : List Char × List Char × Bool :=
  match searchSuffix adrTry s1 with
  | none => ("FIXME".toList, s1, false)
  | some (_, (a1, a2), r) => ('0' :: 'x' :: (a1 ++ a2), r, true)

/-- One iteration of the chapter loop (source lines 106-177): name
match (exit on failure, before any output), address, register line,
bitdescription search (raising on failure, after the register line was
printed), field loop, trailing recovery.  Returns the printed lines in
order and an optional termination signal. -/
def processChapter (ch : List Char) : List (List Char) × Option Sig :=
  match nameScan ch with
  | none => ([], some .stop)
  | some (rname, s1) =>
    let a := chapterAddress s1
    let regline := rname ++ spaceFor rname ++ a.1
    match bitdescFrom a.2.2 a.2.1 with
    | none => ([regline], some (.fail msgNoBitdesc))
    | some s3 =>
      match fieldLoop (s3.length + 1) s3 none none none with
      | .error (flines, msg) => (regline :: flines, some (.fail msg))
      | .ok lo =>
        let r := trailingRecovery lo
        (regline :: (lo.lines ++ r.1), r.2)

/-- The `for chapter in chapters` loop: chapters processed in order;
`exit()` stops the run silently, a raised error stops it loudly; in
both cases the lines already printed remain. -/
def runChapters : List (List Char) → List (List Char) × RunEnd
  | [] => ([], .normal)
  | ch :: rest =>
    match processChapter ch with
    | (lns, none) =>
      let q := runChapters rest
      (lns ++ q.1, q.2)
    | (lns, some .stop) => (lns, .stopped)
    | (lns, some (.fail msg)) => (lns, .err msg)

/-- get_nextm with `is_search=True` (source lines 58-66), rendered
positionally: search the matcher from the current `m.end()`; on success
the cursor becomes the end of the new match, on failure it is left
unchanged and False is returned. -/
def get_nextm_search (m : List Char → Option (γ × List Char))
    (ch : List Char) (mend : Nat) : Bool × Nat :=
  match searchSuffix m (ch.drop mend) with
  | some (_, _, r) => (true, ch.length - r.length)
  | none => (false, mend)

/-- get_nextm with `is_search=False` (source lines 58-68): an anchored
attempt at the current `m.end()`. -/
def get_nextm_match (m : List Char → Option (γ × List Char))
    (ch : List Char) (mend : Nat) : Bool × Nat :=
  match m (ch.drop mend) with
  | some (_, r) => (true, ch.length - r.length)
  | none => (false, mend)

/-- One field of an SVD register as used by svd2devregs.py. -/
structure SvdField where
  name : List Char
  bit_offset : Int
  bit_width : Int

/-- One field line of gen_svd2dat (svd2devregs.py lines 31-35):
`\t:{peripheral}_{field}:{offset}-{offset+width-1}` when the width
exceeds 1, else `\t:{peripheral}_{field}:{offset}`. -/
def svdFieldLine (pname : List Char) (f : SvdField) : List Char :=
  if 1 < f.bit_width then
    '\t' :: ':' :: (pname ++ '_' :: f.name ++ ':' ::
      (intRepr f.bit_offset ++ '-' :: intRepr (f.bit_offset + f.bit_width - 1)))
  else
    '\t' :: ':' :: (pname ++ '_' :: f.name ++ ':' :: intRepr f.bit_offset)

/-- The field loop of gen_svd2dat over one register. -/
def svdFieldsOut (pname : List Char) (fs : List SvdField) : List (List Char) :=
  fs.map (svdFieldLine pname)

/-- The range separator of r_field as a string (see `dashLit`). -/
def moji : String := "â€“"

/-- A chapter without any parenthesized word: r_name cannot match. -/
def chC1 : List Char := ("chapter with no name here 1.2 and (a gap ) only").toList

/-- A chapter whose field table ends with the pair 31-16 (low bound not
0) and whose text ends right after the field name, so that the one
extra name resolution of trailing recovery finds nothing. -/
def chC2 : List Char :=
  ("x (REG)\n Address: q = 0000_0000h\n Reset 0 Field Description\n  31"
    ++ moji ++ "16\n  CTRL").toList

/-- A chapter with ranges 31-16 and 15-1 and one further name after the
last field name, triggering trailing recovery. -/
def chC3 : List Char :=
  ("x (REG)\n Address: q = 0000_0000h\n Reset 0 Field Description\n  31"
    ++ moji ++ "16\n  CTRL\n  15" ++ moji ++ "1\n  STATUS\n  DONE").toList

/-- A chapter whose address line carries four non-hex characters on
both sides of the underscore. -/
def chC4 : List Char := ("x (REG)\n Address: q = wxyz_qrsth\n").toList

/-- The address example of the specification. -/
def chC4hex : List Char :=
  ("Register Foo (REGA)\n Address: Base + offset = ABCD_EF01h\n"
    ++ " Reset 0 Field Description\n  31" ++ moji ++ "0\n  ALL").toList

/-- A chapter whose first field name is split into the fragments CTRL_
and EN across two name lines. -/
def chC5 : List Char :=
  ("x (REG)\n Address: q = 0000_0000h\n Reset 0 Field Description\n  31"
    ++ moji ++ "16\n  CTRL_ x\n  EN\n  0 \n  Rsv").toList

/-- A chapter with a lone-integer bit line and a Reserved pair. -/
def chC8lone : List Char :=
  ("x (REG)\n Address: q = 0000_0010h\n Reset 0 Field Description\n  31 \n"
    ++ "  CTRL\n  30" ++ moji ++ "0\n  Reserved").toList

/-- A chapter whose range line uses a true EN DASH (U+2013), the
character named by the specification. -/
def chC8endash : List Char :=
  ("x (REG)\n Address: q = 0000_0010h\n Reset 0 Field Description\n  15"
    ++ "–" ++ "7\n  NAME").toList

/-- The same chapter with the three-character separator the compiled
pattern actually contains. -/
def chC8moji : List Char :=
  ("x (REG)\n Address: q = 0000_0010h\n Reset 0 Field Description\n  15"
    ++ moji ++ "7\n  NAME\n  0 \n  Rsv").toList

/-- A well-formed chapter, fully processed. -/
def chC9ok : List Char :=
  ("z (REGC)\n Address: q = 0000_0000h\n Reset 0 Field Description\n  0 \n  Rsv").toList

/-- A chapter with a name but no field-table header. -/
def chC9bad : List Char := ("y (REGB)\n no address here").toList

end Devregs


namespace Devregs

/-! ## Helper lemmas -/

theorem takeWhile_all_append {p : Char → Bool} :
    ∀ (w : List Char) (b : Char) (r : List Char),
    (∀ c ∈ w, p c = true) → p b = false →
    (w ++ b :: r).takeWhile p = w ∧ (w ++ b :: r).dropWhile p = b :: r := by
  intro w
  induction w with
  | nil =>
    intro b r _ hb
    simp [List.takeWhile_cons, List.dropWhile_cons, hb]
  | cons a as ih =>
    intro b r hall hb
    have ha : p a = true := hall a (by simp)
    have := ih b r (fun c hc => hall c (by simp [hc])) hb
    simp [List.takeWhile_cons, List.dropWhile_cons, ha, this.1, this.2]

theorem namePat_head (t : List Char) :
    (∃ w suf, t = w ++ ')' :: suf ∧ w ≠ [] ∧ ∀ x ∈ w, isWd x = true) ↔
    (∃ a as t2, t.takeWhile isWd = a :: as ∧ t.dropWhile isWd = ')' :: t2) := by
  constructor
  · rintro ⟨w, suf, ht, hw, hall⟩
    have hp : isWd ')' = false := by decide
    have h := takeWhile_all_append w ')' suf hall hp
    rcases w with _ | ⟨a, as⟩
    · exact absurd rfl hw
    · exact ⟨a, as, suf, by rw [ht, h.1], by rw [ht, h.2]⟩
  · rintro ⟨a, as, t2, h1, h2⟩
    refine ⟨a :: as, t2, ?_, by simp, ?_⟩
    · conv_lhs => rw [← List.takeWhile_append_dropWhile isWd t]
      rw [h1, h2]
    · intro x hx
      rw [← h1] at hx
      exact List.mem_takeWhile_imp hx

theorem namePat_cons (c : Char) (t : List Char) :
    (∃ pre w suf, c :: t = pre ++ '(' :: (w ++ ')' :: suf) ∧ w ≠ [] ∧
      ∀ x ∈ w, isWd x = true) ↔
    ((c = '(' ∧ ∃ w suf, t = w ++ ')' :: suf ∧ w ≠ [] ∧ ∀ x ∈ w, isWd x = true) ∨
     (∃ pre w suf, t = pre ++ '(' :: (w ++ ')' :: suf) ∧ w ≠ [] ∧
       ∀ x ∈ w, isWd x = true)) := by
  constructor
  · rintro ⟨pre, w, suf, h, hw, hall⟩
    rcases pre with _ | ⟨p, pre⟩
    · simp only [List.nil_append, List.cons.injEq] at h
      exact Or.inl ⟨h.1, w, suf, h.2, hw, hall⟩
    · simp only [List.cons_append, List.cons.injEq] at h
      exact Or.inr ⟨pre, w, suf, h.2, hw, hall⟩
  · rintro (⟨hc, w, suf, h, hw, hall⟩ | ⟨pre, w, suf, h, hw, hall⟩)
    · exact ⟨[], w, suf, by rw [hc, h]; rfl, hw, hall⟩
    · exact ⟨c :: pre, w, suf, by rw [h]; rfl, hw, hall⟩

theorem nameScan_some_iff : ∀ ch : List Char,
    (∃ q, nameScan ch = some q) ↔
    (∃ pre w suf, ch = pre ++ '(' :: (w ++ ')' :: suf) ∧ w ≠ [] ∧
      ∀ x ∈ w, isWd x = true) := by
  intro ch
  induction ch with
  | nil =>
    constructor
    · rintro ⟨q, hq⟩; simp [nameScan] at hq
    · rintro ⟨pre, w, suf, h, -, -⟩
      exact absurd h.symm (by simp)
  | cons c t ih =>
    rw [namePat_cons]
    by_cases hc : c = '('
    · subst hc
      rcases h1 : t.takeWhile isWd with _ | ⟨a, as⟩
      · have hns : nameScan ('(' :: t) = nameScan t := by
          rcases h2 : t.dropWhile isWd with _ | ⟨b, t2⟩ <;>
            simp [nameScan, h1, h2]
        rw [hns, ih]
        constructor
        · exact Or.inr
        · rintro (⟨-, hpat⟩ | hpat)
          · rw [namePat_head] at hpat
            rcases hpat with ⟨a, as, t2, ha, -⟩
            rw [h1] at ha; cases ha
          · exact hpat
      · rcases h2 : t.dropWhile isWd with _ | ⟨b, t2⟩
        · have hns : nameScan ('(' :: t) = nameScan t := by
            simp [nameScan, h1, h2]
          rw [hns, ih]
          constructor
          · exact Or.inr
          · rintro (⟨-, hpat⟩ | hpat)
            · rw [namePat_head] at hpat
              rcases hpat with ⟨x, xs, t2, hx, hd⟩
              rw [h2] at hd; cases hd
            · exact hpat
        · by_cases hb : b = ')'
          · subst hb
            constructor
            · intro _
              exact Or.inl ⟨rfl, (namePat_head t).mpr ⟨a, as, t2, h1, h2⟩⟩
            · intro _
              exact ⟨(a :: as, t2), by simp [nameScan, h1, h2]⟩
          · have hns : nameScan ('(' :: t) = nameScan t := by
              simp [nameScan, h1, h2, hb]
            rw [hns, ih]
            constructor
            · exact Or.inr
            · rintro (⟨-, hpat⟩ | hpat)
              · rw [namePat_head] at hpat
                rcases hpat with ⟨x, xs, u2, hx, hd⟩
                rw [h2] at hd
                cases hd
                exact absurd rfl hb
              · exact hpat
    · have hns : nameScan (c :: t) = nameScan t := by
        simp [nameScan, hc]
      rw [hns, ih]
      constructor
      · exact Or.inr
      · rintro (⟨hcc, -⟩ | hpat)
        · exact absurd hcc hc
        · exact hpat

theorem runChapters_append (xs ys : List (List Char))
    (h : (runChapters xs).2 = RunEnd.normal) :
    runChapters (xs ++ ys) =
      ((runChapters xs).1 ++ (runChapters ys).1, (runChapters ys).2) := by
  induction xs with
  | nil => simp [runChapters]
  | cons ch xs ih =>
    rcases hpc : processChapter ch with ⟨lns, sig⟩
    rcases sig with - | sg
    · have hx : runChapters (ch :: xs) =
          (lns ++ (runChapters xs).1, (runChapters xs).2) := by
        simp [runChapters, hpc]
      rw [hx] at h
      have h2 := ih h
      have hx2 : runChapters (ch :: (xs ++ ys)) =
          (lns ++ (runChapters (xs ++ ys)).1, (runChapters (xs ++ ys)).2) := by
        simp [runChapters, hpc]
      rw [List.cons_append, hx2, h2, hx]
      simp
    · rcases sg with - | msg
      · have hx : runChapters (ch :: xs) = (lns, RunEnd.stopped) := by
          simp [runChapters, hpc]
        rw [hx] at h; cases h
      · have hx : runChapters (ch :: xs) = (lns, RunEnd.err msg) := by
          simp [runChapters, hpc]
        rw [hx] at h; cases h

/-! ## C1 -/

/-- C1: a chapter in which the register-name pattern (an opening
parenthesis, a nonempty word, a closing parenthesis) matches nowhere
makes the program stop the whole document at that chapter: no register
line is emitted for it, no later chapter is processed, and the run ends
in the silent `stopped` state rather than an error.  The first conjunct
identifies the r_name failure with the absence of the pattern; the
second settles the chapter at the head of the remaining input; the
third places it after any normally processed prefix, whose output is
kept unchanged. -/
theorem c1_no_name_stops_run :
    (∀ ch : List Char, nameScan ch = none ↔
      ¬ ∃ pre w suf, ch = pre ++ '(' :: (w ++ ')' :: suf) ∧ w ≠ [] ∧
        ∀ x ∈ w, isWd x = true)
    ∧ (∀ ch rest, nameScan ch = none →
        runChapters (ch :: rest) = ([], RunEnd.stopped))
    ∧ (∀ done ch rest, (runChapters done).2 = RunEnd.normal →
        nameScan ch = none →
        runChapters (done ++ ch :: rest) = ((runChapters done).1, RunEnd.stopped)) := by
  have hstep : ∀ (ch : List Char) rest, nameScan ch = none →
      runChapters (ch :: rest) = ([], RunEnd.stopped) := by
    intro ch rest h
    simp [runChapters, processChapter, h]
  refine ⟨?_, hstep, ?_⟩
  · intro ch
    rw [← nameScan_some_iff]
    cases h : nameScan ch with
    | none => simp [h]
    | some q => simp [h]
  · intro done ch rest hdone hch
    rw [runChapters_append done (ch :: rest) hdone, hstep ch rest hch]
    simp

/-- Witness for C1 at a concrete chapter without the pattern. -/
theorem c1_witness :
    nameScan chC1 = none ∧
    runChapters (chC1 :: [chC9ok]) = ([], RunEnd.stopped) := by
  have h : nameScan chC1 = none := by decide
  exact ⟨h, c1_no_name_stops_run.2.1 chC1 [chC9ok] h⟩

end Devregs

namespace Devregs

theorem isEmpty_append_dash0 (l : List Char) : (l ++ "-0".toList).isEmpty = false := by
  cases l <;> rfl

/-! ## C2 -/

/-- C2 counterexample: the claim asserts that when trailing recovery
attempts a resolution and no name-line is found, nothing further
happens (no error).  On this chapter the last consumed range is 31-16
(low bound not 0), recovery attempts one resolution, the chapter text
ends, and the run ABORTS with the raised `cannot find fldname` error
instead of ending normally. -/
theorem c2_counterexample :
    runChapters [chC2] =
      (["REG\t\t\t0x00000000".toList, "\t:CTRL:31-16".toList],
        RunEnd.err msgNoFldname) ∧
    RunEnd.err msgNoFldname ≠ RunEnd.normal := by
  exact ⟨by decide, by decide⟩

/-- C2 (amended): after the field loop, no further action is taken
exactly when the guard of source line 161 holds: the last range string
contains `-0` as a substring (equivalently, its low bound starts with
the digit 0) or the range is the lone bit `0` (the `is` comparison,
which CPython object caching makes behave as equality there); when a
range with a pair separator has low bound textually 0 this guard holds.
Otherwise exactly one more name resolution is attempted from the
cursor, and: if the name pattern is entirely absent the run aborts with
the `cannot find fldname` error; if it resolves to a dash or Reserved,
nothing is emitted and no error is raised. -/
theorem c2_amended_recovery :
    (∀ lo : LoopOut, recoverySkip lo = true → trailingRecovery lo = ([], none))
    ∧ (∀ (lo : LoopOut) f, lo.field = some f →
        recoverySkip lo = (listInfix ("-0".toList) f || f == "0".toList))
    ∧ (∀ lo : LoopOut, lo.field = none → recoverySkip lo = false)
    ∧ (∀ (lo : LoopOut) msg, recoverySkip lo = false →
        getFldname (lo.rest.length + 1) lo.rest [] = .error msg →
        trailingRecovery lo = ([], some (.fail msg)))
    ∧ (∀ (lo : LoopOut) r, recoverySkip lo = false →
        getFldname (lo.rest.length + 1) lo.rest [] = .ok (none, r) →
        trailingRecovery lo = ([], none)) := by
  refine ⟨?_, ?_, ?_, ?_, ?_⟩
  · intro lo h
    simp [trailingRecovery, h]
  · intro lo f h
    simp [recoverySkip, h]
  · intro lo h
    simp [recoverySkip, h]
  · intro lo msg hskip hgf
    simp [trailingRecovery, hskip, hgf]
  · intro lo r hskip hgf
    simp [trailingRecovery, hskip, hgf]

/-- Witness for C2 at a concrete loop state: last range 31-16, empty
remaining text, recovery aborts with the error. -/
theorem c2_witness :
    trailingRecovery
      ⟨[], some ("31".toList), some ("16".toList), some ("31-16".toList), []⟩ =
      ([], some (.fail msgNoFldname)) :=
  c2_amended_recovery.2.2.2.1
    ⟨[], some ("31".toList), some ("16".toList), some ("31-16".toList), []⟩
    msgNoFldname rfl rfl

/-! ## C3 -/

/-- C3: when trailing recovery runs (guard failed) and one more name is
resolved, the synthesized range is `str(int(sb)-1) ++ "-0"` when the
last range had an explicit low bound sb, `str(int(eb)-1) ++ "-0"` when
it was a lone HIGH bit eb, and `31-0` when the loop never matched a
range; concretely, after ranges 31-16 and 15-1 the synthesized field is
`0-0` (last conjunct, on a full chapter). -/
theorem c3_trailing_synthesis :
    (∀ (lo : LoopOut) name r sbv, recoverySkip lo = false →
        getFldname (lo.rest.length + 1) lo.rest [] = .ok (some name, r) →
        lo.sb = some sbv →
        trailingRecovery lo =
          ([tabColon name (intRepr ((digitsToNat sbv : Int) - 1) ++ "-0".toList)],
            none))
    ∧ (∀ (lo : LoopOut) name r ebv, recoverySkip lo = false →
        getFldname (lo.rest.length + 1) lo.rest [] = .ok (some name, r) →
        lo.sb = none → lo.eb = some ebv →
        trailingRecovery lo =
          ([tabColon name (intRepr ((digitsToNat ebv : Int) - 1) ++ "-0".toList)],
            none))
    ∧ (∀ (lo : LoopOut) name r, recoverySkip lo = false →
        getFldname (lo.rest.length + 1) lo.rest [] = .ok (some name, r) →
        lo.sb = none → lo.eb = none →
        trailingRecovery lo = ([tabColon name ("31-0".toList)], none))
    ∧ runChapters [chC3] =
        (["REG\t\t\t0x00000000".toList, "\t:CTRL:31-16".toList,
          "\t:STATUS:15-1".toList, "\t:DONE:0-0".toList], RunEnd.normal) := by
  refine ⟨?_, ?_, ?_, by decide⟩
  · intro lo name r sbv hskip hgf hsb
    simp [trailingRecovery, hskip, hgf, hsb, isEmpty_append_dash0]
  · intro lo name r ebv hskip hgf hsb heb
    simp [trailingRecovery, hskip, hgf, hsb, heb, isEmpty_append_dash0]
  · intro lo name r hskip hgf hsb heb
    simp [trailingRecovery, hskip, hgf, hsb, heb]

/-- Witness for C3: last range 15-1, a further name DONE present, the
emitted line is tab colon DONE colon 0-0. -/
theorem c3_witness :
    trailingRecovery
      ⟨[], some ("15".toList), some ("1".toList), some ("15-1".toList),
        ("\n  DONE").toList⟩ =
      (["\t:DONE:0-0".toList], none) :=
  c3_trailing_synthesis.1
    ⟨[], some ("15".toList), some ("1".toList), some ("15-1".toList),
      ("\n  DONE").toList⟩
    ("DONE".toList) [] ("1".toList) rfl rfl rfl

/-! ## C4 -/

/-- Shared shape fact: as soon as the register name matches, the first
printed line of the chapter is the register line (name, padding,
address), whatever happens later. -/
theorem processChapter_head (ch : List Char) (rname s1 : List Char)
    (h : nameScan ch = some (rname, s1)) :
    (processChapter ch).1.head? =
      some (rname ++ spaceFor rname ++ (chapterAddress s1).1) := by
  simp only [processChapter, h]
  cases hbd : bitdescFrom (chapterAddress s1).2.2 (chapterAddress s1).2.1 with
  | none => simp
  | some s3 =>
    cases hfl : fieldLoop (s3.length + 1) s3 none none none with
    | error e =>
      rcases e with ⟨flines, msg⟩
      simp [hfl]
    | ok lo => simp [hfl]

/-- C4 counterexample: the claim asserts the FIXME sentinel whenever no
line with two four-character HEX groups exists.  This chapter has an
address line `= wxyz_qrsth` with non-hex groups; the program emits
`0xwxyzqrst`, not FIXME (the pattern accepts ANY four characters). -/
theorem c4_counterexample :
    runChapters [chC4] =
      (["REG\t\t\t0xwxyzqrst".toList], RunEnd.err msgNoBitdesc) ∧
    "REG\t\t\t0xwxyzqrst".toList ≠
      ("REG".toList ++ spaceFor ("REG".toList) ++ "FIXME".toList) := by
  exact ⟨by decide, by decide⟩

/-- C4 (amended): the emitted address is decided by the first r_adr
match forward of the name match, whose two four-character groups are
arbitrary characters (hexness is never checked): on a match the address
is `0x` followed by the two groups, and only when the pattern is absent
altogether is it the literal FIXME.  The closed conjunct checks the
specification example `Address: Base + offset = ABCD_EF01h`, which
yields `0xABCDEF01`. -/
theorem c4_amended_address :
    (∀ ch rname s1, nameScan ch = some (rname, s1) →
      (searchSuffix adrTry s1 = none →
        (processChapter ch).1.head? =
          some (rname ++ spaceFor rname ++ "FIXME".toList))
      ∧ (∀ k a1 a2 r, searchSuffix adrTry s1 = some (k, ((a1, a2), r)) →
        (processChapter ch).1.head? =
          some (rname ++ spaceFor rname ++ ('0' :: 'x' :: (a1 ++ a2)))))
    ∧ runChapters [chC4hex] =
        (["REGA\t\t\t0xABCDEF01".toList, "\t:ALL:31-0".toList],
          RunEnd.normal) := by
  refine ⟨?_, by decide⟩
  intro ch rname s1 h
  constructor
  · intro hadr
    have := processChapter_head ch rname s1 h
    rw [this]
    simp [chapterAddress, hadr]
  · intro k a1 a2 r hadr
    have := processChapter_head ch rname s1 h
    rw [this]
    simp [chapterAddress, hadr]

/-- Witness for C4 on a chapter without any r_adr match: the register
line carries the FIXME sentinel. -/
theorem c4_witness :
    (processChapter chC9bad).1.head? = some ("REGB\t\t\tFIXME".toList) :=
  (c4_amended_address.1 chC9bad ("REGB".toList) ("\n no address here".toList)
    rfl).1 rfl

end Devregs

namespace Devregs

/-! ## C5 -/

/-- C5: a name-line whose word ends in an underscore and continues (the
fldname_multi alternative) makes get_fldname recurse and concatenate:
the first conjunct is the recursion step (the fragment, underscore
included, is appended to the accumulator before recursing); the second
shows every resolved name is the accumulator followed by a fixed core,
so fragments concatenate in order; the closed conjunct runs a full
chapter where the fragments `CTRL_` and `EN` produce the single emitted
field line `\t:CTRL_EN:31-16`. -/
theorem c5_multi_concat :
    (∀ (fuel : Nat) (s acc : List Char) k w r,
      searchSuffix fldnameTry (pagebreakStep s) = some (k, (FldAlt.multi w, r)) →
      getFldname (fuel + 1) s acc = getFldname fuel r (acc ++ w))
    ∧ (∀ (fuel : Nat) (s acc1 acc2 out r : List Char),
      getFldname fuel s acc1 = .ok (some out, r) →
      ∃ core, out = acc1 ++ core ∧
        getFldname fuel s acc2 = .ok (some (acc2 ++ core), r))
    ∧ runChapters [chC5] =
        (["REG\t\t\t0x00000000".toList, "\t:CTRL_EN:31-16".toList,
          "\t:Rsv:0".toList], RunEnd.normal) := by
  refine ⟨?_, ?_, by decide⟩
  · intro fuel s acc k w r h
    simp [getFldname, h]
  · intro fuel
    induction fuel with
    | zero => intro s acc1 acc2 out r h; simp [getFldname] at h
    | succ fuel ih =>
      intro s acc1 acc2 out r h
      rw [getFldname] at h
      cases hs : searchSuffix fldnameTry (pagebreakStep s) with
      | none => rw [hs] at h; cases h
      | some q =>
        rcases q with ⟨k, alt, r0⟩
        rw [hs] at h
        cases alt with
        | reserved => simp at h
        | solo w =>
          simp only [Except.ok.injEq, Prod.mk.injEq, Option.some.injEq] at h
          refine ⟨w, h.1.symm, ?_⟩
          rw [getFldname, hs]
          simp [h.2]
        | multi w =>
          simp only at h
          rcases ih r0 (acc1 ++ w) (acc2 ++ w) out r h with ⟨core, hout, hrun⟩
          refine ⟨w ++ core, by rw [hout, List.append_assoc], ?_⟩
          rw [getFldname, hs]
          simp only []
          rw [hrun, List.append_assoc]

/-- Witness for C5: one concrete multi step, the fragment CTRL_ carried
into the recursive call. -/
theorem c5_witness :
    getFldname 43 (("\n  CTRL_ x\n  EN").toList) [] =
      getFldname 42 ((" x\n  EN").toList) ("CTRL_".toList) := by
  have h := c5_multi_concat.1 42 (("\n  CTRL_ x\n  EN").toList) [] 0
    ("CTRL_".toList) ((" x\n  EN").toList) (by decide)
  simpa using h

/-! ## C8 -/

/-- C8: the claim is right about lone integers (third conjunct: a lone
bit line is emitted with the single number, never N-N) and right that
an en-dash pair should be emitted as HIGH-LOW, but the code cannot do
the latter: the compiled r_field contains not the EN DASH U+2013 named
by the specification but its UTF-8 bytes re-decoded as cp1252 (three
characters, see `dashLit`; fourth conjunct).  First conjunct, the
failing input: a chapter whose range line is `  15-7` written with a
true EN DASH is not recognized at all -- no `15-7` field is emitted and
trailing recovery instead fabricates `NAME:31-0`.  Second conjunct: the
same chapter written with the mojibake separator does emit
`\t:NAME:15-7`, confirming the diagnosis. -/
theorem c8_dash_encoding_eval :
    runChapters [chC8endash] =
      (["REG\t\t\t0x00000010".toList, "\t:NAME:31-0".toList], RunEnd.normal)
    ∧ runChapters [chC8moji] =
      (["REG\t\t\t0x00000010".toList, "\t:NAME:15-7".toList,
        "\t:Rsv:0".toList], RunEnd.normal)
    ∧ runChapters [chC8lone] =
      (["REG\t\t\t0x00000010".toList, "\t:CTRL:31".toList], RunEnd.normal)
    ∧ dashLit ≠ "–".toList := by
  exact ⟨by decide, by decide, by decide, by decide⟩

/-! ## C9 -/

/-- C9: output is incremental.  First conjunct: once the name matches,
the first line of the chapter output is the register line, whatever
happens afterwards (in particular the register line precedes the
bitdescription search, whose failure aborts the run).  Second conjunct:
when a chapter aborts the run with a raised error, the produced output
is everything printed by the previously processed chapters followed by
the lines of the failing chapter (its register line included), and the
run ends with that error.  The closed conjunct shows a two-chapter run
failing with `no bitdescription found` on the second chapter while the
first chapter and the register line of the failing one are already out. -/
theorem c9_incremental_output :
    (∀ ch rname s1, nameScan ch = some (rname, s1) →
      (processChapter ch).1.head? =
        some (rname ++ spaceFor rname ++ (chapterAddress s1).1))
    ∧ (∀ pre ch rest msg, (runChapters pre).2 = RunEnd.normal →
        (processChapter ch).2 = some (.fail msg) →
        runChapters (pre ++ ch :: rest) =
          ((runChapters pre).1 ++ (processChapter ch).1, RunEnd.err msg))
    ∧ runChapters [chC9ok, chC9bad] =
        (["REGC\t\t\t0x00000000".toList, "\t:Rsv:0".toList,
          "REGB\t\t\tFIXME".toList], RunEnd.err msgNoBitdesc) := by
  refine ⟨processChapter_head, ?_, by decide⟩
  intro pre ch rest msg hpre hsig
  rw [runChapters_append pre (ch :: rest) hpre]
  rcases hpc : processChapter ch with ⟨lns, sig⟩
  rw [hpc] at hsig
  simp only at hsig
  subst hsig
  simp [runChapters, hpc]

/-- Witness for C9: the failing chapter after one good chapter. -/
theorem c9_witness :
    runChapters ([chC9ok] ++ chC9bad :: []) =
      ((runChapters [chC9ok]).1 ++ (processChapter chC9bad).1,
        RunEnd.err msgNoBitdesc) :=
  c9_incremental_output.2.1 [chC9ok] chC9bad [] msgNoBitdesc (by decide) (by decide)

/-! ## C10 -/

/-- C10: for an SVD field of width above 1 the converter emits the
range as offset-(offset+width-1), lowest bit first (the second member
of the first conjunct records offset <= offset+width-1, the reverse of
the devregs HIGH-LOW order); for width 1 or less it emits the bare
offset.  The closed conjunct: offset 4, width 3 gives `4-6`. -/
theorem c10_svd_field_range :
    (∀ (p : List Char) (f : SvdField), 1 < f.bit_width →
      svdFieldLine p f =
        '\t' :: ':' :: (p ++ '_' :: f.name ++ ':' ::
          (intRepr f.bit_offset ++ '-' :: intRepr (f.bit_offset + f.bit_width - 1)))
      ∧ f.bit_offset ≤ f.bit_offset + f.bit_width - 1)
    ∧ (∀ (p : List Char) (f : SvdField), f.bit_width ≤ 1 →
      svdFieldLine p f =
        '\t' :: ':' :: (p ++ '_' :: f.name ++ ':' :: intRepr f.bit_offset))
    ∧ svdFieldLine ("GPIO".toList) ⟨"MODE".toList, 4, 3⟩ =
        "\t:GPIO_MODE:4-6".toList := by
  refine ⟨?_, ?_, by decide⟩
  · intro p f h
    constructor
    · unfold svdFieldLine
      rw [if_pos h]
    · omega
  · intro p f h
    unfold svdFieldLine
    rw [if_neg (by omega)]

/-- Witness for C10 at offset 2, width 4. -/
theorem c10_witness :
    svdFieldLine ("P".toList) ⟨"F".toList, 2, 4⟩ =
      '\t' :: ':' :: ("P".toList ++ '_' :: "F".toList ++ ':' ::
        (intRepr 2 ++ '-' :: intRepr (2 + 4 - 1))) ∧
    (2 : Int) ≤ 2 + 4 - 1 :=
  c10_svd_field_range.1 ("P".toList) ⟨"F".toList, 2, 4⟩ (by decide)

end Devregs

namespace Devregs

/-! ## C6 -/

theorem beq_false_of_isWd (c : Char) (h : isWd c = true) (b : Char)
    (hb : isWd b = false) : (c == b) = false := by
  cases hc : c == b
  · rfl
  · exfalso
    rw [eq_of_beq hc] at h
    rw [hb] at h
    cases h

theorem isWs_of_isWd (c : Char) (h : isWd c = true) : isWs c = false := by
  unfold isWs
  rw [beq_false_of_isWd c h ' ' (by decide), beq_false_of_isWd c h '\t' (by decide),
    beq_false_of_isWd c h '\n' (by decide), beq_false_of_isWd c h '\r' (by decide),
    beq_false_of_isWd c h '\x0b' (by decide), beq_false_of_isWd c h '\x0c' (by decide)]
  rfl

theorem prefix_append_one :
    ∀ (lit w : List Char) (b : Char), (∀ c ∈ lit, ¬ c = b) →
    lit.isPrefixOf (w ++ [b]) = lit.isPrefixOf w := by
  intro lit
  induction lit with
  | nil => intro w b _; simp [List.isPrefixOf]
  | cons a la ih =>
    intro w b hb
    cases w with
    | nil =>
      have hab : (a == b) = false := by
        have := hb a (by simp)
        simp [this]
      simp only [List.nil_append, List.isPrefixOf, hab]
      simp
    | cons x w2 =>
      simp only [List.cons_append, List.isPrefixOf, List.append_eq]
      rw [ih w2 b (fun c hc => hb c (by simp [hc]))]

theorem fldnameTry_not_nl (c : Char) (t : List Char) (h : ¬ c = '\n') :
    fldnameTry (c :: t) = none := by
  simp [fldnameTry, h]

theorem searchSuffix_cons (m : List Char → Option (γ × List Char)) (c : Char)
    (t : List Char) (h : m (c :: t) = none) :
    searchSuffix m (c :: t) = (searchSuffix m t).map (fun q => (q.1 + 1, q.2)) := by
  simp only [searchSuffix, h]

theorem fldname_search_skip :
    ∀ (l r : List Char), (∀ c ∈ l, ¬ c = '\n') →
    searchSuffix fldnameTry (l ++ r) =
      (searchSuffix fldnameTry r).map (fun q => (q.1 + l.length, q.2)) := by
  intro l
  induction l with
  | nil =>
    intro r _
    cases h : searchSuffix fldnameTry r <;> simp [h]
  | cons c l ih =>
    intro r hl
    have hfail : fldnameTry (c :: (l ++ r)) = none :=
      fldnameTry_not_nl c _ (hl c (by simp))
    rw [List.cons_append, searchSuffix_cons fldnameTry c (l ++ r) hfail]
    rw [ih r (fun x hx => hl x (by simp [hx]))]
    cases h : searchSuffix fldnameTry r <;> simp [h, Nat.add_assoc]

/-- C6 counterexample: the claim accepts every standalone word that is
not purely digits and is not the literal word Field, so it accepts
`Fieldx` (starts with but is not Field) and `2ABC` (starts with but is
not only digits).  The code rejects both: the negative lookaheads
`(?!\d+)` and `(?!Field)` fail whenever the word merely STARTS with a
digit or with Field, and since nothing else on the line can match, the
whole r_fldname search fails on these one-name inputs. -/
theorem c6_counterexample :
    searchSuffix fldnameTry (("\n  Fieldx\n").toList) = none ∧
    searchSuffix fldnameTry (("\n  2ABC\n").toList) = none := by
  exact ⟨by decide, by decide⟩

/-- C6 (amended): on a name line holding one standalone word (of word
characters), field-name resolution accepts the word as the complete
field name exactly when its first character is not a digit and it does
not begin with the literal `Field` nor the literal `Reserved`: the
first conjunct returns the solo word under those conditions; the second
shows a word beginning with a digit or with `Field` makes the whole
search fail (the line is skipped, no name is truncated out of it); the
third shows a word beginning with `Reserved` resolves as the reserved
marker, not as a name. -/
theorem c6_amended_solo :
    ∀ (wh : Char) (wt : List Char), (∀ c ∈ wh :: wt, isWd c = true) →
      ((isDigitC wh = false → ("Field".toList).isPrefixOf (wh :: wt) = false →
        ("Reserved".toList).isPrefixOf (wh :: wt) = false →
        fldnameTry ('\n' :: ' ' :: ' ' :: ((wh :: wt) ++ ['\n'])) =
          some (FldAlt.solo (wh :: wt), ['\n']))
      ∧ ((isDigitC wh = true ∨ ("Field".toList).isPrefixOf (wh :: wt) = true) →
        searchSuffix fldnameTry ('\n' :: ' ' :: ' ' :: ((wh :: wt) ++ ['\n'])) = none)
      ∧ (("Reserved".toList).isPrefixOf (wh :: wt) = true →
        fldnameTry ('\n' :: ' ' :: ' ' :: ((wh :: wt) ++ ['\n'])) =
          some (FldAlt.reserved, ((wh :: wt) ++ ['\n']).drop 8))) := by
  intro wh wt hall
  have hwh : isWd wh = true := hall wh (by simp)
  have hws : isWs wh = false := isWs_of_isWd wh hwh
  have hsp : isWs ' ' = true := by decide
  have hrun : List.takeWhile isWs (' ' :: ' ' :: wh :: (wt ++ ['\n'])) = [' ', ' '] := by
    simp [List.takeWhile_cons, hsp, hws]
  have hdrop : List.dropWhile isWs (' ' :: ' ' :: wh :: (wt ++ ['\n'])) =
      wh :: (wt ++ ['\n']) := by
    simp [List.dropWhile_cons, hsp, hws]
  have htwdw := takeWhile_all_append (p := isWd) (wh :: wt) '\n' [] hall (by decide)
  simp only [List.cons_append, List.append_nil] at htwdw
  have hfand : fldnameTry ('\n' :: ' ' :: ' ' :: wh :: (wt ++ ['\n'])) =
      (if wh = '-' then some (FldAlt.reserved, wt ++ ['\n'])
       else if ("Reserved".toList).isPrefixOf (wh :: (wt ++ ['\n'])) then
         some (FldAlt.reserved, (wh :: (wt ++ ['\n'])).drop 8)
       else if isDigitC wh then none
       else if ("Field".toList).isPrefixOf (wh :: (wt ++ ['\n'])) then none
       else some (FldAlt.solo (wh :: wt), ['\n'])) := by
    simp [fldnameTry, hrun, hdrop, htwdw.1, htwdw.2, multiLook]
  have hresEq : ("Reserved".toList) = 'R' :: ("eserved".toList) := rfl
  have hFEq : ("Field".toList) = 'F' :: ("ield".toList) := rfl
  refine ⟨?_, ?_, ?_⟩
  · intro h1 h2 h3
    have hdash : ¬ wh = '-' := by
      intro h; rw [h] at hwh; exact absurd hwh (by decide)
    have h2b : ("Field".toList).isPrefixOf (wh :: (wt ++ ['\n'])) = false := by
      have := prefix_append_one ("Field".toList) (wh :: wt) '\n' (by decide)
      simp only [List.cons_append] at this
      rw [this]; exact h2
    have h3b : ("Reserved".toList).isPrefixOf (wh :: (wt ++ ['\n'])) = false := by
      have := prefix_append_one ("Reserved".toList) (wh :: wt) '\n' (by decide)
      simp only [List.cons_append] at this
      rw [this]; exact h3
    simp only [List.cons_append]
    rw [hfand, if_neg hdash, h3b, if_neg (by simp), h1, if_neg (by simp), h2b,
      if_neg (by simp)]
  · intro hrej
    have hfail : fldnameTry ('\n' :: ' ' :: ' ' :: wh :: (wt ++ ['\n'])) = none := by
      rcases hrej with h1 | h2
      · have hdash : ¬ wh = '-' := by
          intro h; rw [h] at h1; exact absurd h1 (by decide)
        have hRne : ¬ ('R' : Char) = wh := by
          intro h; rw [← h] at h1; exact absurd h1 (by decide)
        have hres : ("Reserved".toList).isPrefixOf (wh :: (wt ++ ['\n'])) = false := by
          rw [hresEq]
          simp only [List.isPrefixOf]
          simp [hRne]
        rw [hfand, if_neg hdash, hres, if_neg (by simp), h1, if_pos rfl]
      · have h2c := h2
        rw [hFEq] at h2c
        simp only [List.isPrefixOf, Bool.and_eq_true, beq_iff_eq] at h2c
        have hwhF : wh = 'F' := h2c.1.symm
        have hdash : ¬ wh = '-' := by rw [hwhF]; decide
        have hRne : ¬ ('R' : Char) = wh := by rw [hwhF]; decide
        have hres : ("Reserved".toList).isPrefixOf (wh :: (wt ++ ['\n'])) = false := by
          rw [hresEq]
          simp only [List.isPrefixOf]
          simp [hRne]
        have hdig : isDigitC wh = false := by rw [hwhF]; decide
        have h2b : ("Field".toList).isPrefixOf (wh :: (wt ++ ['\n'])) = true := by
          have := prefix_append_one ("Field".toList) (wh :: wt) '\n' (by decide)
          simp only [List.cons_append] at this
          rw [this]; exact h2
        rw [hfand, if_neg hdash, hres, if_neg (by simp), hdig, if_neg (by simp),
          h2b, if_pos rfl]
    have hmem : ∀ c ∈ ' ' :: ' ' :: wh :: wt, ¬ c = '\n' := by
      intro c hc
      rcases List.mem_cons.mp hc with h | hc2
      · subst h; decide
      rcases List.mem_cons.mp hc2 with h | hc3
      · subst h; decide
      · intro hnl
        rw [hnl] at hc3
        exact absurd (hall _ hc3) (by decide)
    have hwalk := fldname_search_skip (' ' :: ' ' :: wh :: wt) ['\n'] hmem
    have h1n : searchSuffix fldnameTry ['\n'] = none := by decide
    rw [h1n] at hwalk
    simp at hwalk
    simp only [List.cons_append]
    rw [searchSuffix_cons fldnameTry '\n' _ hfail, hwalk]
    rfl
  · intro h3
    have h3c := h3
    rw [hresEq] at h3c
    simp only [List.isPrefixOf, Bool.and_eq_true, beq_iff_eq] at h3c
    have hwhR : wh = 'R' := h3c.1.symm
    have hdash : ¬ wh = '-' := by rw [hwhR]; decide
    have h3b : ("Reserved".toList).isPrefixOf (wh :: (wt ++ ['\n'])) = true := by
      have := prefix_append_one ("Reserved".toList) (wh :: wt) '\n' (by decide)
      simp only [List.cons_append] at this
      rw [this]; exact h3
    simp only [List.cons_append]
    rw [hfand, if_neg hdash, h3b, if_pos rfl]

/-- Witness for C6: the word OK is accepted as a solo name. -/
theorem c6_witness :
    fldnameTry ('\n' :: ' ' :: ' ' :: (("OK".toList) ++ ['\n'])) =
      some (FldAlt.solo ("OK".toList), ['\n']) :=
  (c6_amended_solo 'O' ("K".toList) (by decide)).1 (by decide) (by decide) (by decide)

end Devregs

namespace Devregs

/-! ## C7: length bounds for every matcher -/

theorem dropWhile_len_le (p : Char → Bool) (l : List Char) :
    (l.dropWhile p).length ≤ l.length :=
  (List.dropWhile_sublist p).length_le

theorem dotStarNlKeep_le (u r : List Char) (h : dotStarNlKeep u = some r) :
    r.length ≤ u.length := by
  unfold dotStarNlKeep at h
  split at h
  · cases h
  · rename_i c t heq
    injection h with h2
    subst h2
    rw [← heq]
    exact dropWhile_len_le _ u

theorem dotStarNl_le (u r : List Char) (h : dotStarNl u = some r) :
    r.length ≤ u.length := by
  unfold dotStarNl at h
  split at h
  · cases h
  · rename_i c t heq
    injection h with h2
    subst h2
    have h3 := dropWhile_len_le (fun c => !(c == Char.ofNat 10)) u
    rw [heq] at h3
    simp at h3
    omega

theorem stripWs1_le (u r : List Char) (h : stripWs1 u = some r) :
    r.length ≤ u.length := by
  unfold stripWs1 at h
  split at h
  · cases h
  · split at h
    · injection h with h2
      subst h2
      simp
    · cases h

theorem stripLit_le (lit u r : List Char) (h : stripLit lit u = some r) :
    r.length ≤ u.length := by
  unfold stripLit at h
  split at h
  · injection h with h2
    subst h2
    simp
  · cases h

theorem adrAfterEq_le (u : List Char) (g : List Char × List Char) (r : List Char)
    (h : adrAfterEq u = some (g, r)) : r.length ≤ u.length := by
  unfold adrAfterEq at h
  split at h
  · split at h
    · injection h with h2
      injection h2 with h3 h4
      subst h3
      subst h4
      simp
      omega
    · cases h
  · cases h

theorem adrScanEq_le : ∀ (u : List Char) (g : List Char × List Char) (r : List Char),
    adrScanEq u = some (g, r) → r.length ≤ u.length := by
  intro u
  induction u with
  | nil => intro g r h; cases h
  | cons c t ih =>
    intro g r h
    unfold adrScanEq at h
    split at h
    · split at h
      · rename_i x heq
        injection h with h2
        subst h2
        have := adrAfterEq_le t g r heq
        simp
        omega
      · have := ih g r h
        simp
        omega
    · have := ih g r h
      simp
      omega

theorem adrTry_le (s : List Char) (g : List Char × List Char) (r : List Char)
    (h : adrTry s = some (g, r)) : r.length ≤ s.length := by
  unfold adrTry at h
  split at h
  · split at h
    · simp only [] at h
      split at h
      · rename_i c t hc hpre
        have h1 := adrScanEq_le _ g r h
        have h2 := dropWhile_len_le isWs t
        have h3 : ((t.dropWhile isWs).drop 8).length ≤ (t.dropWhile isWs).length := by
          rw [List.length_drop]; omega
        simp
        omega
      · cases h
    · cases h
  · cases h

theorem findLitAfter_le (lit : List Char) :
    ∀ (u r : List Char), findLitAfter lit u = some r → r.length ≤ u.length := by
  intro u
  induction u with
  | nil =>
    intro r h
    unfold findLitAfter at h
    split at h
    · injection h with h2; subst h2; simp
    · cases h
  | cons c t ih =>
    intro r h
    unfold findLitAfter at h
    split at h
    · injection h with h2
      subst h2
      rw [List.length_drop]
      omega
    · have := ih r h
      simp
      omega

theorem find01After_le : ∀ (u r : List Char), find01After u = some r →
    r.length ≤ u.length := by
  intro u
  induction u with
  | nil => intro r h; cases h
  | cons c t ih =>
    intro r h
    unfold find01After at h
    split at h
    · injection h with h2; subst h2; simp
    · have := ih r h
      simp
      omega

theorem findFieldDesc_le : ∀ (u r : List Char), findFieldDesc u = some r →
    r.length ≤ u.length := by
  intro u
  induction u with
  | nil => intro r h; cases h
  | cons c t ih =>
    intro r h
    unfold findFieldDesc at h
    split at h
    · simp only [] at h
      split at h
      · injection h with h2
        subst h2
        have h1 : (((c :: t).drop 5).dropWhile isWs).length ≤ ((c :: t).drop 5).length :=
          dropWhile_len_le _ _
        have h2 : ((((c :: t).drop 5).dropWhile isWs).drop 11).length ≤
            (((c :: t).drop 5).dropWhile isWs).length := by
          rw [List.length_drop]; omega
        have h3 : ((c :: t).drop 5).length ≤ (c :: t).length := by
          rw [List.length_drop]; omega
        omega
      · have := ih r h
        simp
        omega
    · have := ih r h
      simp
      omega

theorem bitdescFrom_le (b : Bool) (s r : List Char)
    (h : bitdescFrom b s = some r) : r.length ≤ s.length := by
  unfold bitdescFrom at h
  cases b with
  | true =>
    simp only [if_pos] at h
    split at h
    · cases h
    · rename_i s2 hReset
      split at h
      · cases h
      · rename_i s3 h01
        have l1 := findLitAfter_le _ _ _ hReset
        have l2 := find01After_le _ _ h01
        have l3 := findFieldDesc_le _ _ h
        omega
  | false =>
    simp only [Bool.false_eq_true, if_false] at h
    cases hnl : findLitAfter ['\n'] s with
    | none => rw [hnl] at h; cases h
    | some s1 =>
      rw [hnl] at h
      simp only [] at h
      have l0 := findLitAfter_le _ _ _ hnl
      split at h
      · cases h
      · rename_i s2 hReset
        split at h
        · cases h
        · rename_i s3 h01
          have l1 := findLitAfter_le _ _ _ hReset
          have l2 := find01After_le _ _ h01
          have l3 := findFieldDesc_le _ _ h
          omega

end Devregs

namespace Devregs

theorem fieldTry_le (s : List Char) (g : List Char × Option (List Char))
    (r : List Char) (h : fieldTry s = some (g, r)) : r.length ≤ s.length := by
  unfold fieldTry at h
  split at h
  case h_2 => cases h
  rename_i c t
  split at h
  case isFalse => cases h
  simp only [] at h
  split at h
  case isFalse => cases h
  split at h
  case h_2 => cases h
  rename_i d dt
  split at h
  case isFalse => cases h
  have b4 := dropWhile_len_le isDigitC (t.dropWhile isWs)
  have b5 := dropWhile_len_le isWs t
  split at h
  · -- separator branch
    split at h
    case isTrue => cases h
    split at h
    case h_1 => cases h
    rename_i r0 hx
    injection h with h2
    injection h2 with h3 h4
    subst h4
    have b1 := dotStarNlKeep_le _ _ hx
    have b2 := dropWhile_len_le isDigitC
      (((t.dropWhile isWs).dropWhile isDigitC).drop dashLit.length)
    have b3 : ((((t.dropWhile isWs).dropWhile isDigitC).drop
        dashLit.length)).length ≤
        ((t.dropWhile isWs).dropWhile isDigitC).length := by
      rw [List.length_drop]; omega
    simp
    omega
  · -- lone-bit branch
    split at h
    case h_2 => cases h
    rename_i e t3 heq2
    split at h
    case isFalse => cases h
    split at h
    case h_1 => cases h
    rename_i r0 hx
    injection h with h2
    injection h2 with h3 h4
    subst h4
    have b1 := dotStarNlKeep_le _ _ hx
    have b2 : (e :: t3).length ≤ ((t.dropWhile isWs).dropWhile isDigitC).length := by
      rw [← heq2]
    simp at b2
    simp
    omega

theorem fldnameTry_le (s : List Char) (g : FldAlt) (r : List Char)
    (h : fldnameTry s = some (g, r)) : r.length ≤ s.length := by
  unfold fldnameTry at h
  split at h
  case h_2 => cases h
  rename_i c t
  split at h
  case isFalse => cases h
  simp only [] at h
  split at h
  case isFalse => cases h
  split at h
  case h_1 => cases h
  rename_i d r0 heq
  have hb : (d :: r0).length ≤ t.length := by
    rw [← heq]
    exact dropWhile_len_le _ _
  simp at hb
  have hb2 : (t.dropWhile isWs).length ≤ t.length := dropWhile_len_le _ _
  split at h
  · injection h with h2
    injection h2 with h3 h4
    subst h4
    simp
    omega
  split at h
  · injection h with h2
    injection h2 with h3 h4
    subst h4
    rw [List.length_drop, heq]
    simp
    omega
  split at h
  case isTrue => cases h
  split at h
  case isTrue => cases h
  split at h
  case isTrue => cases h
  have hb3 : ((t.dropWhile isWs).dropWhile isWd).length ≤
      (t.dropWhile isWs).length := dropWhile_len_le _ _
  split at h <;>
  · injection h with h2
    injection h2 with h3 h4
    subst h4
    simp
    omega

end Devregs

namespace Devregs

theorem mem_of_head_some {α : Type} {l : List α} {a : α}
    (h : l.head? = some a) : a ∈ l := by
  cases l with
  | nil => cases h
  | cons b t =>
    simp at h
    subst h
    simp

theorem wsDotNlCands_le (n : Nat) (s : List Char) :
    ∀ r ∈ wsDotNlCands n s, r.length ≤ s.length := by
  intro r h
  unfold wsDotNlCands at h
  simp only [] at h
  split at h
  · simp at h
  · have hlen : (s.takeWhile isWs).length + (s.dropWhile isWs).length = s.length := by
      rw [← List.length_append, List.takeWhile_append_dropWhile]
    rcases List.mem_append.mp h with h1 | h2
    · split at h1
      · simp at h1
      · rename_i c t heq
        simp at h1
        subst h1
        have b1 : (List.dropWhile (fun c => !(c == '\n')) (s.dropWhile isWs)).length ≤
            (s.dropWhile isWs).length := dropWhile_len_le _ _
        rw [heq] at b1
        simp at b1
        omega
    · rw [List.mem_filterMap] at h2
      rcases h2 with ⟨p, hp, hsome⟩
      split at hsome
      · injection hsome with h3
        subst h3
        rw [List.length_append, List.length_drop]
        omega
      · cases hsome

theorem pbLine2_le (s r : List Char) (h : pbLine2 s = some r) :
    r.length ≤ s.length := by
  unfold pbLine2 at h
  simp only [] at h
  split at h
  · cases h
  · rcases Option.bind_eq_some.mp h with ⟨t1, h1, h⟩
    rcases Option.bind_eq_some.mp h with ⟨t2, h2, h⟩
    rcases Option.bind_eq_some.mp h with ⟨t3, h3, h⟩
    rcases Option.bind_eq_some.mp h with ⟨t4, h4, h⟩
    rcases Option.bind_eq_some.mp h with ⟨t5, h5, h⟩
    rcases Option.bind_eq_some.mp h with ⟨t6, h6, h⟩
    rcases Option.bind_eq_some.mp h with ⟨t7, h7, h⟩
    rcases Option.bind_eq_some.mp h with ⟨t8, h8, h⟩
    rcases Option.bind_eq_some.mp h with ⟨t9, h9, h⟩
    rcases Option.bind_eq_some.mp h with ⟨t10, h10, h⟩
    rcases Option.bind_eq_some.mp h with ⟨t11, h11, h⟩
    have b0 := dropWhile_len_le isWs s
    have b1 := stripLit_le _ _ _ h1
    have b2 := stripWs1_le _ _ h2
    have b3 := stripLit_le _ _ _ h3
    have b4 := stripWs1_le _ _ h4
    have b5 := stripLit_le _ _ _ h5
    have b6 := stripWs1_le _ _ h6
    have b7 := stripLit_le _ _ _ h7
    have b8 := stripWs1_le _ _ h8
    have b9 := stripLit_le _ _ _ h9
    have b10 := stripWs1_le _ _ h10
    have b11 := stripLit_le _ _ _ h11
    have b12 := dotStarNl_le _ _ h
    omega

theorem pbLine4_le (s : List Char) : ∀ r ∈ pbLine4 s, r.length ≤ s.length := by
  intro r h
  unfold pbLine4 at h
  simp only [] at h
  rw [List.mem_filterMap] at h
  rcases h with ⟨i, hi, hsome⟩
  split at hsome
  · split at hsome
    · cases hsome
    · rename_i v hv
      split at hsome
      · cases hsome
      · rename_i v2 hv2
        have b1 := stripWs1_le _ _ hv
        have b2 := stripLit_le _ _ _ hv2
        have b3 := dotStarNl_le _ _ hsome
        have b4 : ((s.drop i).drop 3).length ≤ (s.drop i).length := by
          rw [List.length_drop]; omega
        have b5 : (s.drop i).length ≤ s.length := by
          rw [List.length_drop]; omega
        omega
  · cases hsome

theorem pbLine6_le (s r : List Char) (h : pbLine6 s = some r) :
    r.length ≤ s.length := by
  unfold pbLine6 at h
  simp only [] at h
  split at h
  · exact dotStarNl_le _ _ h
  · cases h

theorem pbLine7_le (s r : List Char) (h : pbLine7 s = some r) :
    r.length ≤ s.length := by
  unfold pbLine7 at h
  simp only [] at h
  have hmem := mem_of_head_some h
  rw [List.mem_filterMap] at hmem
  rcases hmem with ⟨i, hi, hsome⟩
  split at hsome
  · split at hsome
    · injection hsome with h3
      subst h3
      have b1 := dropWhile_len_le isWs ((s.drop i).drop 5)
      have b2 : ((((s.drop i).drop 5).dropWhile isWs).drop 11).length ≤
          (((s.drop i).drop 5).dropWhile isWs).length := by
        rw [List.length_drop]; omega
      have b3 : ((s.drop i).drop 5).length ≤ (s.drop i).length := by
        rw [List.length_drop]; omega
      have b4 : (s.drop i).length ≤ s.length := by
        rw [List.length_drop]; omega
      omega
    · cases hsome
  · cases hsome

theorem pbTail2_le (g r : List Char) (h : pbTail2 g = some r) :
    r.length ≤ g.length := by
  unfold pbTail2 at h
  rcases Option.bind_eq_some.mp h with ⟨t2, h2, h⟩
  rcases List.exists_of_findSome?_eq_some h with ⟨t3, ht3, h⟩
  rcases List.exists_of_findSome?_eq_some h with ⟨t4, ht4, h⟩
  rcases Option.bind_eq_some.mp h with ⟨t5, h5, h⟩
  rcases Option.bind_eq_some.mp h with ⟨t6, h6, h⟩
  have b2 := pbLine2_le g t2 h2
  have b3 := wsDotNlCands_le 20 t2 t3 ht3
  have b4 := pbLine4_le t3 t4 ht4
  have b5 := dotStarNl_le _ _ h5
  have b6 := pbLine6_le t5 t6 h6
  have b7 := pbLine7_le t6 r h
  omega

theorem pagebreakMatch_le (s r : List Char) (h : pagebreakMatch s = some r) :
    r.length ≤ s.length := by
  unfold pagebreakMatch at h
  rcases List.exists_of_findSome?_eq_some h with ⟨gc, hmem, hg⟩
  have hb := pbTail2_le gc r hg
  rcases List.mem_append.mp hmem with h1 | h2
  · have := wsDotNlCands_le 14 s gc h1
    omega
  · simp at h2
    subst h2
    omega

theorem searchSuffix_spec {γ : Type} (m : List Char → Option (γ × List Char)) :
    ∀ (s : List Char) (k : Nat) (g : γ) (r : List Char),
    searchSuffix m s = some (k, (g, r)) →
    k ≤ s.length ∧ m (s.drop k) = some (g, r) := by
  intro s
  induction s with
  | nil =>
    intro k g r h
    simp only [searchSuffix] at h
    cases hm : m [] with
    | none => rw [hm] at h; cases h
    | some p =>
      rw [hm] at h
      simp only [Option.map] at h
      injection h with h2
      injection h2 with ha hb
      subst ha
      exact ⟨Nat.le_refl 0, by rw [List.drop_nil, hm, hb]⟩
  | cons c t ih =>
    intro k g r h
    simp only [searchSuffix] at h
    cases hm : m (c :: t) with
    | some p =>
      rw [hm] at h
      simp only [Option.some.injEq, Prod.mk.injEq] at h
      rcases h with ⟨hk, hp⟩
      subst hk
      constructor
      · simp
      · rw [List.drop_zero, hm, hp]
    | none =>
      rw [hm] at h
      cases hq : searchSuffix m t with
      | none => rw [hq] at h; cases h
      | some q =>
        rw [hq] at h
        rcases q with ⟨k0, g0, r0⟩
        simp only [Option.map] at h
        injection h with h2
        injection h2 with ha hb
        injection hb with hg0 hr0
        subst ha
        subst hg0
        subst hr0
        have := ih k0 g0 r0 hq
        constructor
        · simp
          omega
        · simpa using this.2

end Devregs

namespace Devregs

/-- C7: the scan cursor is monotone.  First conjunct: a successful
search starts at or after the position it was launched from (the skip
count k is nonnegative by construction and the match is an anchored
match at exactly that start).  Second/third conjuncts: get_nextm in
search mode leaves the cursor unchanged on failure, and on success the
new cursor (the match end) is at or beyond the old one.  Fourth/fifth:
the same for match mode (pagebreak), whose match starts exactly at the
cursor.  The remaining conjuncts discharge the well-formedness
hypothesis (a match never consumes a negative amount: the returned rest
is no longer than the scanned suffix) for every matcher the program
passes to get_nextm: r_adr, r_field, r_fldname, r_pagebreak and
r_bitdescription. -/
theorem c7_cursor_monotone :
    (∀ (γ : Type) (m : List Char → Option (γ × List Char)) (s : List Char)
        (k : Nat) (g : γ) (r : List Char),
      searchSuffix m s = some (k, (g, r)) →
      k ≤ s.length ∧ m (s.drop k) = some (g, r))
    ∧ (∀ (γ : Type) (m : List Char → Option (γ × List Char)) (ch : List Char)
        (mend : Nat), (get_nextm_search m ch mend).1 = false →
        (get_nextm_search m ch mend).2 = mend)
    ∧ (∀ (γ : Type) (m : List Char → Option (γ × List Char)) (ch : List Char)
        (mend : Nat),
        (∀ s g r, m s = some (g, r) → r.length ≤ s.length) → mend ≤ ch.length →
        (get_nextm_search m ch mend).1 = true →
        mend ≤ (get_nextm_search m ch mend).2)
    ∧ (∀ (γ : Type) (m : List Char → Option (γ × List Char)) (ch : List Char)
        (mend : Nat), (get_nextm_match m ch mend).1 = false →
        (get_nextm_match m ch mend).2 = mend)
    ∧ (∀ (γ : Type) (m : List Char → Option (γ × List Char)) (ch : List Char)
        (mend : Nat),
        (∀ s g r, m s = some (g, r) → r.length ≤ s.length) → mend ≤ ch.length →
        (get_nextm_match m ch mend).1 = true →
        mend ≤ (get_nextm_match m ch mend).2)
    ∧ (∀ s g r, adrTry s = some (g, r) → r.length ≤ s.length)
    ∧ (∀ s g r, fieldTry s = some (g, r) → r.length ≤ s.length)
    ∧ (∀ s g r, fldnameTry s = some (g, r) → r.length ≤ s.length)
    ∧ (∀ s r, pagebreakMatch s = some r → r.length ≤ s.length)
    ∧ (∀ b s r, bitdescFrom b s = some r → r.length ≤ s.length) := by
  refine ⟨fun γ m => searchSuffix_spec m, ?_, ?_, ?_, ?_,
    fun s g r => adrTry_le s g r, fun s g r => fieldTry_le s g r,
    fun s g r => fldnameTry_le s g r, fun s r => pagebreakMatch_le s r,
    fun b s r => bitdescFrom_le b s r⟩
  · intro γ m ch mend hfalse
    unfold get_nextm_search at hfalse ⊢
    split at hfalse
    · cases hfalse
    · rfl
  · intro γ m ch mend hm hend htrue
    unfold get_nextm_search at htrue ⊢
    split at htrue
    · rename_i k g r hs
      have hspec := searchSuffix_spec m (ch.drop mend) k g r hs
      have hr := hm _ _ _ hspec.2
      have hk := hspec.1
      have hd1 : (ch.drop mend).length = ch.length - mend := List.length_drop ..
      have hd2 : ((ch.drop mend).drop k).length = (ch.drop mend).length - k :=
        List.length_drop ..
      rw [hd1] at hd2 hk
      rw [hd2] at hr
      show mend ≤ ch.length - r.length
      omega
    · cases htrue
  · intro γ m ch mend hfalse
    unfold get_nextm_match at hfalse ⊢
    split at hfalse
    · cases hfalse
    · rfl
  · intro γ m ch mend hm hend htrue
    unfold get_nextm_match at htrue ⊢
    split at htrue
    · rename_i g r hs
      have hr := hm _ _ _ hs
      have hd1 : (ch.drop mend).length = ch.length - mend := List.length_drop ..
      rw [hd1] at hr
      show mend ≤ ch.length - r.length
      omega
    · cases htrue

/-- Witness for C7: a concrete r_fldname search that skips one
character; the theorem places its start at or after the cursor and
bounds the rest. -/
theorem c7_witness :
    (1 : Nat) ≤ ("x\n  OK\n".toList).length ∧
    fldnameTry (("x\n  OK\n".toList).drop 1) =
      some (FldAlt.solo ("OK".toList), ['\n']) :=
  c7_cursor_monotone.1 FldAlt fldnameTry ("x\n  OK\n".toList) 1
    (FldAlt.solo ("OK".toList)) ['\n'] (by decide)

end Devregs
